import Mathlib

/-!
Verification development for the GeminiAIbot conversational front-end
(`GeminiAIbot.py`).  The three pieces of original logic are embedded
shallowly:

* the quota / rate limiter (`get_request_count`, `update_request_count`,
  `check_rate_limit`, the `require_rate_limit` gate);
* the bounded in-memory conversation history (`user_histories`,
  `ask_gemini_with_history`);
* the outbound message renderer (`markdown_to_html` and the chunk splitter
  plus plain-text fallback of `send_long_message`).

External collaborators (the SQLite connection, the Telegram transport, the
Gemini backend and the subscription lookup) are modelled as explicit state
(a total function standing for the `requests` table, with 0 for an absent
row, exactly as `get_request_count` reads it) and explicit parameters (the
subscription flag, the backend outcome, the transport failure oracle).
Strings manipulated by the renderer are modelled as `List Char`, matching
Python's per-character indexing in `rfind` / slicing.
-/

/-! ## Constants (lines 69-71 and 157 of the source) -/

def MAX_HISTORY : Nat := 10

def LIMIT_UNSUB : Nat := 20

def LIMIT_SUB : Nat := 40

def TELEGRAM_MSG_LIMIT : Nat := 4096

/-! ## Quota store and rate limiter

The `requests` table keyed by `(user_id, req_date)` is modelled as a total
function `Store`; `get_request_count` returns the stored count or 0 when
the row is absent, so the model folds both into the function's value.
`update_request_count` is a `REPLACE` upsert, modelled as a pointwise
function update. -/

abbrev Store := Nat → String → Nat

/-- Embedding of `update_request_count` (source lines 95-103): upsert of the
count for one `(user_id, req_date)` key, leaving every other key alone. -/
def update_request_count (user_id : Nat) (req_date : String) (new_count : Nat)
    (store : Store) : Store :=
  fun u d => if u = user_id ∧ d = req_date then new_count else store u d

/-- Embedding of `check_rate_limit` (source lines 114-127).  The subscription
flag is an explicit parameter (the Telegram lookup is an external
collaborator).  Returns the admit/reject decision together with the store
after the call; the user-facing rejection notice is a transport side effect
and carries no state, so it is not part of the model. -/
def check_rate_limit (user_id : Nat) (today : String) (subscribed : Bool)
    (store : Store) : Bool × Store :=
  let count := store user_id today
  let limit := if subscribed then LIMIT_SUB else LIMIT_UNSUB
  if limit ≤ count then (false, store)
  else (true, update_request_count user_id today (count + 1) store)

/-- Iterated `check_rate_limit` calls for one `(user, today)` key, one call
per subscription flag in the list; returns the list of decisions and the
final store. -/
def runRateCalls (user_id : Nat) (today : String) :
    List Bool → Store → List Bool × Store
  | [], store => ([], store)
  | b :: rest, store =>
    let r := check_rate_limit user_id today b store
    let rec' := runRateCalls user_id today rest r.2
    (r.1 :: rec'.1, rec'.2)

/-! ## Conversation history store -/

inductive Role where
  | user
  | model
deriving DecidableEq

structure Turn where
  role : Role
  parts : List String
deriving DecidableEq

/-- A user turn `{'role': 'user', 'parts': [prompt]}` (source line 177). -/
def userTurn (prompt : String) : Turn := ⟨Role.user, [prompt]⟩

/-- A model turn `{'role': 'model', 'parts': [reply]}` (source line 187). -/
def modelTurn (reply : String) : Turn := ⟨Role.model, [reply]⟩

/-- The `user_histories` dict (source line 68): absent key = `none`. -/
abbrev Histories := Nat → Option (List Turn)

def setHist (hs : Histories) (user_id : Nat) (v : List Turn) : Histories :=
  fun u => if u = user_id then some v else hs u

/-- `user_histories.pop(uid, None)` (source line 215). -/
def popHist (hs : Histories) (user_id : Nat) : Histories :=
  fun u => if u = user_id then none else hs u

/-- Python's negative slice `l[-n:]`: the last `n` elements (all of them when
the list is shorter). -/
def lastN (n : Nat) (l : List α) : List α := (l.reverse.take n).reverse

/-- Outcome of the opaque Gemini backend call (source line 179): a reply
text, a `ResourceExhausted` error, or any other exception. -/
inductive GeminiOutcome where
  | ok (text : String)
  | quotaExceeded
  | error

def GeminiOutcome.isOk : GeminiOutcome → Bool
  | .ok _ => true
  | _ => false

/-- Notice returned on `ResourceExhausted` (source line 183). -/
def quota_notice : String := "⚠️ Квота исчерпана, попробуйте чуть позже."

/-- Notice returned on any other backend exception (source line 186). -/
def backend_error_notice : String := "⚠️ Ошибка при обращении к Gemini AI."

/-- Embedding of `ask_gemini_with_history` (source lines 175-189).

`hist = user_histories.get(user_id, [])` aliases the stored list when the
key is present, so `hist.append({'role': 'user', ...})` mutates the stored
entry in place; when the key is absent the freshly created list is never
stored on the error paths.  The model reproduces the observable effect:
on a backend error the user turn is written back exactly when the key was
present (with no truncation), and on success the entry is reassigned to the
last `MAX_HISTORY` elements of the appended list. -/
def ask_gemini_with_history (user_id : Nat) (prompt : String)
    (outcome : GeminiOutcome) (hs : Histories) : String × Histories :=
  let hist1 := ((hs user_id).getD []) ++ [userTurn prompt]
  match outcome with
  | .ok text =>
    let reply := text.trim
    (reply, setHist hs user_id (lastN MAX_HISTORY (hist1 ++ [modelTurn reply])))
  | .quotaExceeded =>
    (quota_notice, if (hs user_id).isSome then setHist hs user_id hist1 else hs)
  | .error =>
    (backend_error_notice,
      if (hs user_id).isSome then setHist hs user_id hist1 else hs)

/-- A sequence of processed messages for one user: each element is the
prompt together with the backend outcome for that call. -/
def runOps (user_id : Nat) :
    List (String × GeminiOutcome) → Histories → Histories
  | [], hs => hs
  | (p, o) :: rest, hs =>
    runOps user_id rest (ask_gemini_with_history user_id p o hs).2

/-- The full sequence of turns appended by `runOps`, oldest first: every
call appends a user turn, and a successful call also appends the model turn
holding the trimmed reply. -/
def turnsOf : List (String × GeminiOutcome) → List Turn
  | [] => []
  | (p, .ok t) :: rest => userTurn p :: modelTurn t.trim :: turnsOf rest
  | (p, _) :: rest => userTurn p :: turnsOf rest

/-- Embedding of the `/reset` handler (source lines 212-216) together with
its `require_rate_limit` decorator (source lines 130-137): the rate check
runs first and its store write always takes effect; the history entry is
popped only when the check admits. -/
def reset (user_id : Nat) (today : String) (subscribed : Bool)
    (store : Store) (hs : Histories) : Store × Histories :=
  let r := check_rate_limit user_id today subscribed store
  if r.1 then (r.2, popHist hs user_id) else (r.2, hs)

/-! ## Markdown → HTML renderer (source lines 140-154)

Characters are compared against explicit code points where a literal would
be awkward.  `backtick` is `U+0060`. -/

def backtick : Char := Char.ofNat 96

def quoteChar : Char := Char.ofNat 34

def apostropheChar : Char := Char.ofNat 39

/-- The three-backtick fence delimiter of the `re.split` pattern. -/
def fence : List Char := [backtick, backtick, backtick]

/-- One character of `html.escape` (quote=True).  Python performs five
sequential whole-string replacements (`&`, `<`, `>`, `"`, `'` in that
order); since no replacement text contains a character replaced by a later
pass, and the `&` pass runs first, the sequential passes coincide with this
single character-wise map. -/
def html_escape_char (c : Char) : List Char :=
  if c = '&' then "&amp;".toList
  else if c = '<' then "&lt;".toList
  else if c = '>' then "&gt;".toList
  else if c = quoteChar then "&quot;".toList
  else if c = apostropheChar then "&#x27;".toList
  else [c]

/-- Embedding of `html.escape(s, quote=True)`. -/
def html_escape (s : List Char) : List Char :=
  (s.map html_escape_char).flatten

/-- Index of the first position where a three-backtick fence starts (the
regex engine's leftmost-match rule for the pattern used in
`re.split(r"(```[\s\S]*?```)", text)`; the guard `take 3 = fence`
also enforces that three characters remain). -/
def findFence : List Char → Option Nat
  | [] => none
  | c :: cs => if (c :: cs).take 3 = fence then some 0 else (findFence cs).map (· + 1)

/-- Embedding of `re.split(r"(```[\s\S]*?```)", text)`: the capture group
makes `re.split` return the alternation of non-matched text and matched
fenced blocks.  A match starts at the leftmost fence that has a later
closing fence; the lazy `[\s\S]*?` makes the closing fence the earliest
one at least three characters further on.  When no (closed) match exists
the whole remainder is a single non-matched segment. -/
def splitFences : List Char → List (List Char)
  | [] => [[]]
  | c :: cs =>
    match findFence (c :: cs) with
    | none => [c :: cs]
    | some i =>
      match findFence ((c :: cs).drop (i + 3)) with
      | none => [c :: cs]
      | some k =>
        (c :: cs).take i :: ((c :: cs).drop i).take (k + 6) ::
          splitFences ((c :: cs).drop (i + k + 6))
termination_by s => s.length
decreasing_by
  simp only [List.length_drop, List.length_cons]
  omega

/-- Python's `seg.strip(chr(96))`: remove leading and trailing backticks. -/
def strip_backticks (s : List Char) : List Char :=
  ((s.dropWhile (fun c => c = backtick)).reverse.dropWhile
    (fun c => c = backtick)).reverse

def pre_open : List Char := "<pre><code>".toList

def pre_close : List Char := "</code></pre>".toList

/-! ### Inline substitutions on non-code segments

Each of the three `re.sub` passes scans left to right; at every position the
pattern is tried (alternatives in order, lazy groups preferring the
earliest closing delimiter, `.` never matching a newline) and on failure
the scanner advances one character.  The scan functions below take an
explicit fuel argument so they are structurally recursive; every step
consumes at least one character of the remaining input, so fuel equal to
the input length is never exhausted. -/

/-- Closing search for a two-character delimiter `dd` after an opening
`dd`, lazy: the content is the shortest newline-free prefix followed by
`dd`.  Returns the content and the text after the closing delimiter. -/
def closeDouble (d : Char) : List Char → Option (List Char × List Char)
  | [] => none
  | a :: rest =>
    if a = d ∧ rest.head? = some d then some ([], rest.tail)
    else if a = '\n' then none
    else (closeDouble d rest).map (fun p => (a :: p.1, p.2))

/-- Try to match `dd(.*?)dd` at the start of `s`. -/
def tryDelim2 (d : Char) (s : List Char) : Option (List Char × List Char) :=
  match s with
  | a :: b :: t => if a = d ∧ b = d then closeDouble d t else none
  | _ => none

/-- The bold pattern `\*\*(.*?)\*\*|__(.*?)__`, alternatives in order. -/
def tryBold (s : List Char) : Option (List Char × List Char) :=
  match tryDelim2 '*' s with
  | some p => some p
  | none => tryDelim2 '_' s

def subBoldF : Nat → List Char → List Char
  | 0, s => s
  | _ + 1, [] => []
  | f + 1, c :: rest =>
    match tryBold (c :: rest) with
    | some p => "<b>".toList ++ p.1 ++ "</b>".toList ++ subBoldF f p.2
    | none => c :: subBoldF f rest

/-- The bold substitution pass (source line 149). -/
def subBold (s : List Char) : List Char := subBoldF s.length s

/-- Closing search for a single-character delimiter, lazy, newline-blocked;
a zero-length content is allowed (`(.*?)` can be empty). -/
def closeSingle (d : Char) : List Char → Option (List Char × List Char)
  | [] => none
  | a :: rest =>
    if a = d then some ([], rest)
    else if a = '\n' then none
    else (closeSingle d rest).map (fun p => (a :: p.1, p.2))

/-- Try to match `d(.*?)d` at the start of `s`. -/
def tryDelim1 (d : Char) (s : List Char) : Option (List Char × List Char) :=
  match s with
  | a :: t => if a = d then closeSingle d t else none
  | _ => none

/-- The italic pattern `\*(.*?)\*|_(.*?)_`, alternatives in order. -/
def tryItalic (s : List Char) : Option (List Char × List Char) :=
  match tryDelim1 '*' s with
  | some p => some p
  | none => tryDelim1 '_' s

def subItalicF : Nat → List Char → List Char
  | 0, s => s
  | _ + 1, [] => []
  | f + 1, c :: rest =>
    match tryItalic (c :: rest) with
    | some p => "<i>".toList ++ p.1 ++ "</i>".toList ++ subItalicF f p.2
    | none => c :: subItalicF f rest

/-- The italic substitution pass (source line 150). -/
def subItalic (s : List Char) : List Char := subItalicF s.length s

/-- Content scan for inline code: characters up to the first backtick,
failing on a newline or on end of input (the class excludes both). -/
def codeContent : List Char → Option (List Char × List Char)
  | [] => none
  | a :: rest =>
    if a = backtick then some ([], rest)
    else if a = '\n' then none
    else (codeContent rest).map (fun p => (a :: p.1, p.2))

/-- Try to match the inline-code pattern at the start of `s`: an opening
backtick, a nonempty run of non-backtick non-newline characters, and a
closing backtick. -/
def tryCode (s : List Char) : Option (List Char × List Char) :=
  match s with
  | a :: t =>
    if a = backtick then
      match codeContent t with
      | some ([], _) => none
      | some p => some p
      | none => none
    else none
  | _ => none

def subCodeF : Nat → List Char → List Char
  | 0, s => s
  | _ + 1, [] => []
  | f + 1, c :: rest =>
    match tryCode (c :: rest) with
    | some p =>
      "<code>".toList ++ html_escape p.1 ++ "</code>".toList ++ subCodeF f p.2
    | none => c :: subCodeF f rest

/-- The inline-code substitution pass (source line 151); the lambda escapes
the (already escaped) content a second time. -/
def subCode (s : List Char) : List Char := subCodeF s.length s

/-- One line of the multiline blockquote substitution (source line 152):
a line matching `^&gt; (.+)$` is replaced, any other line is kept. -/
def quoteLine (l : List Char) : List Char :=
  if l.take 5 = "&gt; ".toList ∧ l.drop 5 ≠ [] then
    "<blockquote>".toList ++ l.drop 5 ++ "</blockquote>".toList
  else l

/-- The blockquote pass with `re.M`: applied line by line, lines delimited
by newline characters. -/
def subQuote (s : List Char) : List Char :=
  List.intercalate ['\n'] ((s.splitOn '\n').map quoteLine)

/-- Processing of a non-code segment (source lines 148-152): escape, then
bold, italic, inline code and blockquote substitutions in that order. -/
def processText (seg : List Char) : List Char :=
  subQuote (subCode (subItalic (subBold (html_escape seg))))

/-- Processing of one `re.split` segment (source lines 143-153): a segment
that both starts and ends with three backticks is a code block whose
backtick-stripped contents are escaped and wrapped, everything else goes
through the inline pipeline. -/
def processSegment (seg : List Char) : List Char :=
  if seg.take 3 = fence ∧ seg.reverse.take 3 = fence then
    pre_open ++ html_escape (strip_backticks seg) ++ pre_close
  else processText seg

/-- Embedding of `markdown_to_html` (source lines 140-154). -/
def markdown_to_html (s : List Char) : List Char :=
  ((splitFences s).map processSegment).flatten

/-! ## Chunk splitter of `send_long_message` (source lines 157-166) -/

/-- Index of the last newline in `l`, or `none`: Python's
`rfind(chr(10), 0, hi)` applied to the prefix `l = s.take hi`. -/
def lastIdxNl : List Char → Option Nat
  | [] => none
  | c :: cs =>
    match lastIdxNl cs with
    | some j => some (j + 1)
    | none => if c = '\n' then some 0 else none

/-- The split index chosen by one loop iteration (source lines 162-163):
`idx = html_content.rfind(newline, 0, TELEGRAM_MSG_LIMIT)` followed by
`idx = idx if idx > 0 else TELEGRAM_MSG_LIMIT`, which maps both "no
newline" (-1) and "newline at index 0" to the hard cut. -/
def splitIdx (s : List Char) : Nat :=
  match lastIdxNl (s.take TELEGRAM_MSG_LIMIT) with
  | some i => if 0 < i then i else TELEGRAM_MSG_LIMIT
  | none => TELEGRAM_MSG_LIMIT

/-- The `while len(html_content) > TELEGRAM_MSG_LIMIT` splitting loop plus
the final `parts.append(html_content)` (source lines 160-166). -/
def splitChunks (s : List Char) : List (List Char) :=
  if TELEGRAM_MSG_LIMIT < s.length then
    s.take (splitIdx s) :: splitChunks (s.drop (splitIdx s))
  else [s]
termination_by s.length
decreasing_by
  simp only [List.length_drop]
  have hpos : 0 < splitIdx s := by
    unfold splitIdx
    cases h2 : lastIdxNl (s.take TELEGRAM_MSG_LIMIT) with
    | none => decide
    | some i =>
      dsimp only
      split
      · omega
      · decide
  omega

/-! ## Delivery with plain-text fallback (source lines 167-172) -/

/-- Index of the first `>` character. -/
def firstGtIdx : List Char → Option Nat
  | [] => none
  | c :: cs => if c = '>' then some 0 else (firstGtIdx cs).map (· + 1)

def stripTagsF : Nat → List Char → List Char
  | 0, s => s
  | _ + 1, [] => []
  | f + 1, c :: rest =>
    if c = '<' then
      match firstGtIdx rest with
      | some (k + 1) => stripTagsF f (rest.drop (k + 2))
      | _ => c :: stripTagsF f rest
    else c :: stripTagsF f rest

/-- Embedding of `re.sub(r"<[^>]+>", "", part)` (source line 171): a match
is a `<`, at least one non-`>` character (hence exactly the run up to the
first following `>`), and that `>`; unmatched characters are kept.  The
fuel equals the input length; every step consumes at least one character,
so it is never exhausted. -/
def stripTags (s : List Char) : List Char := stripTagsF s.length s

/-- The deliveries attempted for one chunk (source lines 167-172): the
chunk is always sent with HTML markup first; when the transport raises
(`fails part = true`) the tag-stripped chunk is re-sent as plain text.
Each attempt is recorded as (text, markup flag). -/
def attemptsFor (fails : List Char → Bool) (part : List Char) :
    List (List Char × Bool) :=
  if fails part then [(part, true), (stripTags part, false)]
  else [(part, true)]

/-- Embedding of `send_long_message` (source lines 158-172), returning the
ordered list of transport send attempts. -/
def send_long_message (fails : List Char → Bool) (text : List Char) :
    List (List Char × Bool) :=
  ((splitChunks (markdown_to_html text)).map (attemptsFor fails)).flatten

/-! ## Occurrence testing, used to state the code-block splitting claim -/

/-- `pat` occurs at the very start of `s`. -/
def leadsWith : List Char → List Char → Bool
  | [], _ => true
  | _ :: _, [] => false
  | p :: ps, c :: cs => p = c && leadsWith ps cs

/-- `pat` occurs contiguously somewhere in `s`. -/
def containsSub (pat : List Char) : List Char → Bool
  | [] => leadsWith pat []
  | c :: cs => leadsWith pat (c :: cs) || containsSub pat cs

/-! # Theorems -/

/-! ## Rate limiter -/

/-- Claim C2: `check_rate_limit` uses limit 40 when subscribed and 20
otherwise; with the stored count at or above the limit it rejects and
leaves the store untouched at every key, and below the limit it admits and
writes count + 1 for exactly the `(user, today)` key. -/
theorem C2_rate_limit_boundary (uid : Nat) (today : String) (sub : Bool)
    (store : Store) :
    LIMIT_SUB = 40 ∧ LIMIT_UNSUB = 20 ∧
    ((if sub then LIMIT_SUB else LIMIT_UNSUB) ≤ store uid today →
      check_rate_limit uid today sub store = (false, store)) ∧
    (store uid today < (if sub then LIMIT_SUB else LIMIT_UNSUB) →
      (check_rate_limit uid today sub store).1 = true ∧
      (check_rate_limit uid today sub store).2 uid today = store uid today + 1 ∧
      ∀ u d, ¬(u = uid ∧ d = today) →
        (check_rate_limit uid today sub store).2 u d = store u d) := by
  refine ⟨rfl, rfl, ?_, ?_⟩
  · intro h
    simp [check_rate_limit, h]
  · intro h
    have h' : ¬ ((if sub then LIMIT_SUB else LIMIT_UNSUB) ≤ store uid today) :=
      Nat.not_le.mpr h
    refine ⟨by simp [check_rate_limit, h'], ?_, ?_⟩
    · simp [check_rate_limit, h', update_request_count]
    · intro u d hne
      simp [check_rate_limit, h', update_request_count, hne]

/-- Witness for C2 at the exact boundary (count = limit = 20, unsubscribed)
and one step below it. -/
theorem C2_witness :
    check_rate_limit 0 "2026-10-12" false (fun _ _ => 20) =
      (false, fun _ _ => 20) ∧
    (check_rate_limit 0 "2026-10-12" false (fun _ _ => 0)).2 0 "2026-10-12" = 1 := by
  exact ⟨(C2_rate_limit_boundary 0 "2026-10-12" false (fun _ _ => 20)).2.2.1
      (by decide),
    ((C2_rate_limit_boundary 0 "2026-10-12" false (fun _ _ => 0)).2.2.2
      (by decide)).2.1⟩

/-- Auxiliary invariant for C5: iterated calls on one key, each with enough
budget left, are all admitted and increment the stored count once each. -/
theorem runRateCalls_count (uid : Nat) (today : String) :
    ∀ (subs : List Bool) (store : Store),
      (∀ b ∈ subs,
        store uid today + subs.length ≤ (if b then LIMIT_SUB else LIMIT_UNSUB)) →
      (runRateCalls uid today subs store).1.all (fun r => r) = true ∧
      (runRateCalls uid today subs store).2 uid today =
        store uid today + subs.length := by
  intro subs
  induction subs with
  | nil =>
    intro store _
    simp [runRateCalls]
  | cons b rest ih =>
    intro store h
    have hb := h b (by simp)
    have hlt : store uid today < (if b then LIMIT_SUB else LIMIT_UNSUB) := by
      simp only [List.length_cons] at hb
      omega
    have hc : check_rate_limit uid today b store =
        (true, update_request_count uid today (store uid today + 1) store) := by
      simp [check_rate_limit, Nat.not_le.mpr hlt]
    have hval : update_request_count uid today (store uid today + 1) store uid today =
        store uid today + 1 := by
      simp [update_request_count]
    have ihr := ih (update_request_count uid today (store uid today + 1) store)
      (by
        intro b' hb'
        rw [hval]
        have := h b' (List.mem_cons_of_mem _ hb')
        simp only [List.length_cons] at this
        omega)
    simp only [runRateCalls, hc] at *
    refine ⟨by simp [ihr.1], ?_⟩
    rw [ihr.2, hval]
    simp only [List.length_cons]
    omega

/-- Claim C5: starting from an absent key (count 0), n admitting calls with
the applicable limit at least n throughout leave the stored count at n. -/
theorem C5_count_after_n (subs : List Bool) (uid : Nat) (today : String)
    (store : Store) (h0 : store uid today = 0)
    (hlim : ∀ b ∈ subs, subs.length ≤ (if b then LIMIT_SUB else LIMIT_UNSUB)) :
    (runRateCalls uid today subs store).1.all (fun r => r) = true ∧
    (runRateCalls uid today subs store).2 uid today = subs.length := by
  have h := runRateCalls_count uid today subs store
    (by intro b hb; rw [h0]; simpa using hlim b hb)
  rw [h0] at h
  simpa using h

/-- Witness for C5: two calls (unsubscribed then subscribed) from a fresh
key are both admitted and leave the count at 2. -/
theorem C5_witness :
    (runRateCalls 0 "2026-10-12" [false, true] (fun _ _ => 0)).1.all
      (fun r => r) = true ∧
    (runRateCalls 0 "2026-10-12" [false, true] (fun _ _ => 0)).2 0 "2026-10-12" = 2 := by
  have h := C5_count_after_n [false, true] 0 "2026-10-12" (fun _ _ => 0) rfl
    (by decide)
  simpa using h

/-- Claim C9: the `/reset` handler is wrapped in `require_rate_limit`, so a
user at the applicable limit gets rejected and keeps their history (the
store also stays untouched), while an admitted reset consumes one unit of
quota and clears exactly that user's history. -/
theorem C9_reset_gated (uid : Nat) (today : String) (sub : Bool)
    (store : Store) (hs : Histories) :
    ((if sub then LIMIT_SUB else LIMIT_UNSUB) ≤ store uid today →
      reset uid today sub store hs = (store, hs)) ∧
    (store uid today < (if sub then LIMIT_SUB else LIMIT_UNSUB) →
      (reset uid today sub store hs).2 uid = none ∧
      (∀ u, u ≠ uid → (reset uid today sub store hs).2 u = hs u) ∧
      (reset uid today sub store hs).1 uid today = store uid today + 1) := by
  constructor
  · intro h
    simp [reset, check_rate_limit, h]
  · intro h
    have h' : ¬ ((if sub then LIMIT_SUB else LIMIT_UNSUB) ≤ store uid today) :=
      Nat.not_le.mpr h
    refine ⟨?_, ?_, ?_⟩
    · simp [reset, check_rate_limit, h', popHist]
    · intro u hu
      simp [reset, check_rate_limit, h', popHist, hu]
    · simp [reset, check_rate_limit, h', update_request_count]

/-- Witness for C9: a subscribed user at count 40 keeps their history; a
user at count 0 gets it cleared and the count moves to 1. -/
theorem C9_witness :
    reset 0 "2026-10-12" true (fun _ _ => 40)
        (fun u => if u = 0 then some [userTurn "x"] else none) =
      ((fun _ _ => 40), fun u => if u = 0 then some [userTurn "x"] else none) ∧
    (reset 0 "2026-10-12" false (fun _ _ => 0)
        (fun u => if u = 0 then some [userTurn "x"] else none)).2 0 = none ∧
    (reset 0 "2026-10-12" false (fun _ _ => 0)
        (fun u => if u = 0 then some [userTurn "x"] else none)).1 0 "2026-10-12" = 1 := by
  refine ⟨(C9_reset_gated 0 "2026-10-12" true (fun _ _ => 40) _).1 (by decide),
    ((C9_reset_gated 0 "2026-10-12" false (fun _ _ => 0) _).2 (by decide)).1,
    ((C9_reset_gated 0 "2026-10-12" false (fun _ _ => 0) _).2 (by decide)).2.2⟩

/-! ## Conversation history -/

theorem lastN_length_le (n : Nat) (l : List α) : (lastN n l).length ≤ n := by
  simp only [lastN, List.length_reverse, List.length_take]
  exact Nat.min_le_left _ _

/-- Re-truncating after appending to an already truncated list gives the
same result as truncating the full appended list. -/
theorem lastN_lastN_append (n : Nat) (l t : List α) :
    lastN n (lastN n l ++ t) = lastN n (l ++ t) := by
  simp only [lastN, List.reverse_append, List.reverse_reverse]
  rw [List.take_append_eq_append_take, List.take_append_eq_append_take,
    List.take_take]
  congr 2
  · simp [Nat.min_eq_left (Nat.sub_le _ _)]

/-- Invariant behind C1: with only successful backend calls, the stored
entry stays the last `MAX_HISTORY` elements of all turns appended so far. -/
theorem runOps_ok_inv (uid : Nat) :
    ∀ (ops : List (String × GeminiOutcome)) (hs : Histories) (acc : List Turn),
      (∀ po ∈ ops, po.2.isOk = true) →
      ((hs uid).getD []) = lastN MAX_HISTORY acc →
      ((runOps uid ops hs) uid).getD [] =
        lastN MAX_HISTORY (acc ++ turnsOf ops) := by
  intro ops
  induction ops with
  | nil =>
    intro hs acc _ hinv
    simpa [runOps, turnsOf] using hinv
  | cons po rest ih =>
    intro hs acc hok hinv
    obtain ⟨p, o⟩ := po
    have hok0 : o.isOk = true := hok (p, o) (by simp)
    cases o with
    | quotaExceeded => simp [GeminiOutcome.isOk] at hok0
    | error => simp [GeminiOutcome.isOk] at hok0
    | ok t =>
      simp only [runOps]
      have hstep : (ask_gemini_with_history uid p (.ok t) hs).2 uid =
          some (lastN MAX_HISTORY
            (acc ++ [userTurn p, modelTurn t.trim])) := by
        simp only [ask_gemini_with_history, setHist, hinv]
        rw [if_pos trivial]
        have : lastN MAX_HISTORY acc ++ [userTurn p] ++ [modelTurn t.trim] =
            lastN MAX_HISTORY acc ++ [userTurn p, modelTurn t.trim] := by
          simp
        rw [this, lastN_lastN_append]
      have := ih (ask_gemini_with_history uid p (.ok t) hs).2
        (acc ++ [userTurn p, modelTurn t.trim])
        (fun po' h' => hok po' (List.mem_cons_of_mem _ h'))
        (by rw [hstep]; rfl)
      rw [this, turnsOf]
      simp

/-- Claim C1 (amended): for a user with no prior entry, after any sequence
of processed messages in which every backend call succeeds, the stored
history is exactly the last `MAX_HISTORY = 10` appended turns in order, and
its length never exceeds 10.  (Without the success proviso the bound fails:
see the counterexample, where a failed call leaves 11 stored turns.) -/
theorem C1_history_bound (uid : Nat) (ops : List (String × GeminiOutcome))
    (hs : Histories) (h0 : hs uid = none)
    (hok : ∀ po ∈ ops, po.2.isOk = true) :
    ((runOps uid ops hs) uid).getD [] = lastN MAX_HISTORY (turnsOf ops) ∧
    (((runOps uid ops hs) uid).getD []).length ≤ MAX_HISTORY := by
  have h := runOps_ok_inv uid ops hs [] hok (by simp [h0, lastN])
  simp only [List.nil_append] at h
  exact ⟨h, by rw [h]; exact lastN_length_le _ _⟩

/-- Counterexample to C1 as stated: five successful round trips fill the
entry with 10 turns; a sixth message whose backend call fails appends the
user turn in place with no truncation, leaving 11 > 10 stored turns. -/
theorem C1_counterexample :
    (((runOps 0 (List.replicate 5 ("p", GeminiOutcome.ok "r") ++
        [("q", GeminiOutcome.quotaExceeded)]) (fun _ => none)) 0).getD
      []).length = 11 ∧ MAX_HISTORY = 10 := by
  exact ⟨rfl, rfl⟩

/-- Witness for C1: two successful messages leave the last-10 truncation of
the four appended turns stored. -/
theorem C1_witness :
    ((runOps 0 [("a", GeminiOutcome.ok "x"), ("b", GeminiOutcome.ok "y")]
        (fun _ => none)) 0).getD [] =
      lastN MAX_HISTORY (turnsOf
        [("a", GeminiOutcome.ok "x"), ("b", GeminiOutcome.ok "y")]) ∧
    (((runOps 0 [("a", GeminiOutcome.ok "x"), ("b", GeminiOutcome.ok "y")]
        (fun _ => none)) 0).getD []).length ≤ MAX_HISTORY := by
  exact C1_history_bound 0
    [("a", GeminiOutcome.ok "x"), ("b", GeminiOutcome.ok "y")]
    (fun _ => none) rfl (by decide)

/-- Claim C10: on a failed backend call `ask_gemini_with_history` returns
the matching notice string; a user with a stored entry keeps the freshly
appended user turn there with no truncation (the aliased list is mutated in
place), and a user with no entry gets none created. -/
theorem C10_error_paths (uid : Nat) (prompt : String) (hs : Histories) :
    (ask_gemini_with_history uid prompt .quotaExceeded hs).1 = quota_notice ∧
    (ask_gemini_with_history uid prompt .error hs).1 = backend_error_notice ∧
    (∀ h0, hs uid = some h0 →
      (ask_gemini_with_history uid prompt .quotaExceeded hs).2 uid =
        some (h0 ++ [userTurn prompt]) ∧
      (ask_gemini_with_history uid prompt .error hs).2 uid =
        some (h0 ++ [userTurn prompt])) ∧
    (hs uid = none →
      (ask_gemini_with_history uid prompt .quotaExceeded hs).2 = hs ∧
      (ask_gemini_with_history uid prompt .error hs).2 = hs) := by
  refine ⟨rfl, rfl, ?_, ?_⟩
  · intro h0 hh
    constructor <;> simp [ask_gemini_with_history, hh, setHist]
  · intro hh
    constructor <;> simp [ask_gemini_with_history, hh]

/-- Witness for C10: a user with 10 stored turns ends up with the 11-turn
unreduced list after a quota failure; a user with no entry stays absent
after a generic backend error. -/
theorem C10_witness :
    (ask_gemini_with_history 0 "p" GeminiOutcome.quotaExceeded
        (fun u => if u = 0 then some (List.replicate 10 (userTurn "x"))
          else none)).2 0 =
      some (List.replicate 10 (userTurn "x") ++ [userTurn "p"]) ∧
    (ask_gemini_with_history 0 "p" GeminiOutcome.error (fun _ => none)).2 =
      (fun _ => none) := by
  exact ⟨((C10_error_paths 0 "p" _).2.2.1
      (List.replicate 10 (userTurn "x")) rfl).1,
    ((C10_error_paths 0 "p" (fun _ => none)).2.2.2 rfl).2⟩

/-! ## Chunk splitter -/

theorem lastIdxNl_eq_none (l : List Char) (h : ∀ j : Nat, l[j]? ≠ some '\n') :
    lastIdxNl l = none := by
  induction l with
  | nil => rfl
  | cons c cs ih =>
    have hc : ¬ (c = '\n') := by
      intro hc
      exact h 0 (by simp [hc])
    have hcs : lastIdxNl cs = none := ih (fun j => by simpa using h (j + 1))
    simp [lastIdxNl, hcs, hc]

theorem lastIdxNl_eq_none_of_mem (l : List Char) (h : ∀ c ∈ l, c ≠ '\n') :
    lastIdxNl l = none := by
  apply lastIdxNl_eq_none
  intro j hj
  cases hm : l[j]? with
  | none => simp [hm] at hj
  | some a =>
    rw [hm] at hj
    exact h a (List.getElem?_mem hm) (by simpa using hj)

theorem lastIdxNl_eq_some (l : List Char) (i : Nat) (hi : l[i]? = some '\n')
    (hlast : ∀ j, i < j → l[j]? ≠ some '\n') : lastIdxNl l = some i := by
  induction l generalizing i with
  | nil => simp at hi
  | cons c cs ih =>
    cases i with
    | zero =>
      have hc : c = '\n' := by simpa using hi
      have hcs : lastIdxNl cs = none :=
        lastIdxNl_eq_none cs (fun j => by simpa using hlast (j + 1) (by omega))
      simp [lastIdxNl, hcs, hc]
    | succ k =>
      have hk : cs[k]? = some '\n' := by simpa using hi
      have hcs : lastIdxNl cs = some k :=
        ih k hk (fun j hj => by simpa using hlast (j + 1) (by omega))
      simp [lastIdxNl, hcs]

theorem lastIdxNl_getElem (l : List Char) (i : Nat) (h : lastIdxNl l = some i) :
    l[i]? = some '\n' := by
  induction l generalizing i with
  | nil => simp [lastIdxNl] at h
  | cons c cs ih =>
    cases h2 : lastIdxNl cs with
    | some j =>
      rw [lastIdxNl, h2] at h
      have : i = j + 1 := by simpa using h.symm
      subst this
      simpa using ih j h2
    | none =>
      rw [lastIdxNl, h2] at h
      by_cases hc : c = '\n'
      · rw [if_pos hc] at h
        have : i = 0 := by simpa using h.symm
        subst this
        simpa using hc
      · rw [if_neg hc] at h
        simp at h

theorem lastIdxNl_lt_length (l : List Char) (i : Nat)
    (h : lastIdxNl l = some i) : i < l.length := by
  by_contra hge
  have : l[i]? = none := List.getElem?_eq_none (by omega)
  rw [lastIdxNl_getElem l i h] at this
  simp at this

theorem splitIdx_pos (s : List Char) : 0 < splitIdx s := by
  unfold splitIdx
  cases h2 : lastIdxNl (s.take TELEGRAM_MSG_LIMIT) with
  | none => decide
  | some i =>
    dsimp only
    split
    · omega
    · decide

theorem splitIdx_le (s : List Char) : splitIdx s ≤ TELEGRAM_MSG_LIMIT := by
  unfold splitIdx
  cases h2 : lastIdxNl (s.take TELEGRAM_MSG_LIMIT) with
  | none => exact Nat.le_refl _
  | some i =>
    dsimp only
    split
    · have := lastIdxNl_lt_length _ _ h2
      simp only [List.length_take] at this
      omega
    · exact Nat.le_refl _

/-- Fueled form of the chunk-length bound, for strong induction. -/
theorem splitChunks_le_aux :
    ∀ (n : Nat) (s : List Char), s.length ≤ n →
      ∀ c ∈ splitChunks s, c.length ≤ TELEGRAM_MSG_LIMIT := by
  intro n
  induction n with
  | zero =>
    intro s hs c hc
    rw [splitChunks] at hc
    have hlen : ¬ (TELEGRAM_MSG_LIMIT < s.length) := by omega
    rw [if_neg hlen] at hc
    have : c = s := by simpa using hc
    subst this
    omega
  | succ n ih =>
    intro s hs c hc
    rw [splitChunks] at hc
    by_cases h : TELEGRAM_MSG_LIMIT < s.length
    · rw [if_pos h] at hc
      rcases List.mem_cons.mp hc with h1 | h1
      · subst h1
        simp only [List.length_take]
        have := splitIdx_le s
        omega
      · refine ih (s.drop (splitIdx s)) ?_ c h1
        simp only [List.length_drop]
        have := splitIdx_pos s
        omega
    · rw [if_neg h] at hc
      have : c = s := by simpa using hc
      subst this
      omega

/-- Fueled form of the concatenation identity, for strong induction. -/
theorem splitChunks_flatten_aux :
    ∀ (n : Nat) (s : List Char), s.length ≤ n →
      (splitChunks s).flatten = s := by
  intro n
  induction n with
  | zero =>
    intro s hs
    rw [splitChunks]
    have hlen : ¬ (TELEGRAM_MSG_LIMIT < s.length) := by omega
    rw [if_neg hlen]
    simp
  | succ n ih =>
    intro s hs
    rw [splitChunks]
    by_cases h : TELEGRAM_MSG_LIMIT < s.length
    · rw [if_pos h]
      have hrec := ih (s.drop (splitIdx s))
        (by simp only [List.length_drop]; have := splitIdx_pos s; omega)
      simp only [List.flatten_cons, hrec, List.take_append_drop]
    · rw [if_neg h]
      simp

/-- With no newline anywhere, each loop iteration hard-cuts at the limit. -/
theorem splitChunks_noNl_step (s : List Char)
    (h : TELEGRAM_MSG_LIMIT < s.length) (hn : ∀ c ∈ s, c ≠ '\n') :
    splitChunks s =
      s.take TELEGRAM_MSG_LIMIT :: splitChunks (s.drop TELEGRAM_MSG_LIMIT) := by
  have hidx : splitIdx s = TELEGRAM_MSG_LIMIT := by
    unfold splitIdx
    rw [lastIdxNl_eq_none_of_mem _
      (fun c hc => hn c (List.mem_of_mem_take hc))]
  rw [splitChunks, if_pos h, hidx]

/-- Claim C4: every chunk respects the 4096 limit, the chunks concatenate
back to the translated input exactly, and a 9000-character input with no
line breaks yields exactly 3 chunks. -/
theorem C4_chunking (s : List Char) :
    (∀ c ∈ splitChunks s, c.length ≤ TELEGRAM_MSG_LIMIT) ∧
    (splitChunks s).flatten = s ∧
    (s.length = 9000 → (∀ c ∈ s, c ≠ '\n') → (splitChunks s).length = 3) := by
  refine ⟨splitChunks_le_aux s.length s (Nat.le_refl _),
    splitChunks_flatten_aux s.length s (Nat.le_refl _), ?_⟩
  intro h9000 hn
  have h1 : TELEGRAM_MSG_LIMIT < s.length := by
    rw [h9000]; decide
  rw [splitChunks_noNl_step s h1 hn]
  have hn2 : ∀ c ∈ s.drop TELEGRAM_MSG_LIMIT, c ≠ '\n' :=
    fun c hc => hn c (List.mem_of_mem_drop hc)
  have h2 : TELEGRAM_MSG_LIMIT < (s.drop TELEGRAM_MSG_LIMIT).length := by
    simp only [List.length_drop, h9000]; decide
  rw [splitChunks_noNl_step _ h2 hn2]
  have h3 : ¬ (TELEGRAM_MSG_LIMIT <
      ((s.drop TELEGRAM_MSG_LIMIT).drop TELEGRAM_MSG_LIMIT).length) := by
    simp only [List.length_drop, h9000]; decide
  rw [splitChunks, if_neg h3]
  rfl

/-- Witness for C4 on the concrete 9000-character newline-free input. -/
theorem C4_witness :
    (splitChunks (List.replicate 9000 'a')).flatten = List.replicate 9000 'a' ∧
    (splitChunks (List.replicate 9000 'a')).length = 3 := by
  have h := C4_chunking (List.replicate 9000 'a')
  exact ⟨h.2.1, h.2.2 (by rw [List.length_replicate])
    (fun c hc => by rw [List.eq_of_mem_replicate hc]; decide)⟩

/-- Counterexample to C7 as stated: for the input whose only line break
sits at index 0 (strictly inside the first 4096 characters), the code's
`idx > 0` guard discards that break and hard-cuts at 4096 instead of
splitting at the line-break position. -/
theorem C7_counterexample :
    TELEGRAM_MSG_LIMIT < ('\n' :: List.replicate 5000 'a').length ∧
    lastIdxNl (('\n' :: List.replicate 5000 'a').take TELEGRAM_MSG_LIMIT) =
      some 0 ∧
    (splitChunks ('\n' :: List.replicate 5000 'a')).head? =
      some (('\n' :: List.replicate 5000 'a').take TELEGRAM_MSG_LIMIT) ∧
    (('\n' :: List.replicate 5000 'a').take TELEGRAM_MSG_LIMIT).length =
      TELEGRAM_MSG_LIMIT := by
  have hlen : TELEGRAM_MSG_LIMIT < ('\n' :: List.replicate 5000 'a').length := by
    rw [List.length_cons, List.length_replicate]; decide
  have htake : ('\n' :: List.replicate 5000 'a').take TELEGRAM_MSG_LIMIT =
      '\n' :: List.replicate 4095 'a' := by
    rw [show TELEGRAM_MSG_LIMIT = 4095 + 1 from by decide, List.take_succ_cons,
      List.take_replicate, Nat.min_eq_left (by decide)]
  have hlast : lastIdxNl (('\n' :: List.replicate 5000 'a').take
      TELEGRAM_MSG_LIMIT) = some 0 := by
    rw [htake]
    apply lastIdxNl_eq_some
    · rw [List.getElem?_cons_zero]
    · intro j hj
      have hsucc : j = (j - 1) + 1 := by omega
      rw [hsucc, List.getElem?_cons_succ, List.getElem?_replicate]
      by_cases hlt : j - 1 < 4095
      · rw [if_pos hlt]
        decide
      · rw [if_neg hlt]
        simp
  have hidx : splitIdx ('\n' :: List.replicate 5000 'a') = TELEGRAM_MSG_LIMIT := by
    unfold splitIdx
    rw [hlast]
    rfl
  refine ⟨hlen, hlast, ?_, ?_⟩
  · rw [splitChunks, if_pos hlen, hidx]
    rfl
  · rw [htake, List.length_cons, List.length_replicate]
    decide

/-- Claim C7 (amended): for input longer than 4096, the split point is the
position of the last line break at a *positive* index strictly inside the
first 4096 characters when one exists; when no line break is in that range,
or the only remaining one sits at index 0 (where the code's `idx > 0` guard
rejects it), the split is the hard cut at exactly 4096. -/
theorem C7_split_point (s : List Char) (h : TELEGRAM_MSG_LIMIT < s.length) :
    ((∀ j : Nat, j < TELEGRAM_MSG_LIMIT → s[j]? ≠ some '\n') →
      (splitChunks s).head? = some (s.take TELEGRAM_MSG_LIMIT)) ∧
    (∀ i : Nat, 0 < i → i < TELEGRAM_MSG_LIMIT → s[i]? = some '\n' →
      (∀ j : Nat, i < j → j < TELEGRAM_MSG_LIMIT → s[j]? ≠ some '\n') →
      (splitChunks s).head? = some (s.take i)) ∧
    (s[0]? = some '\n' →
      (∀ j : Nat, 0 < j → j < TELEGRAM_MSG_LIMIT → s[j]? ≠ some '\n') →
      (splitChunks s).head? = some (s.take TELEGRAM_MSG_LIMIT)) := by
  have hhead : (splitChunks s).head? = some (s.take (splitIdx s)) := by
    rw [splitChunks, if_pos h]
    rfl
  refine ⟨?_, ?_, ?_⟩
  · intro hno
    have hnone : lastIdxNl (s.take TELEGRAM_MSG_LIMIT) = none := by
      apply lastIdxNl_eq_none
      intro j
      rw [List.getElem?_take]
      by_cases hjL : j < TELEGRAM_MSG_LIMIT
      · rw [if_pos hjL]
        exact hno j hjL
      · rw [if_neg hjL]
        simp
    rw [hhead]
    unfold splitIdx
    rw [hnone]
  · intro i hi0 hiL hinl hlater
    have hsome : lastIdxNl (s.take TELEGRAM_MSG_LIMIT) = some i := by
      apply lastIdxNl_eq_some
      · rw [List.getElem?_take_of_lt hiL]
        exact hinl
      · intro j hj
        rw [List.getElem?_take]
        by_cases hjL : j < TELEGRAM_MSG_LIMIT
        · rw [if_pos hjL]
          exact hlater j hj hjL
        · rw [if_neg hjL]
          simp
    rw [hhead]
    unfold splitIdx
    rw [hsome]
    show some (List.take (if 0 < i then i else TELEGRAM_MSG_LIMIT) s) =
      some (List.take i s)
    rw [if_pos hi0]
  · intro h0 hlater
    have hsome : lastIdxNl (s.take TELEGRAM_MSG_LIMIT) = some 0 := by
      apply lastIdxNl_eq_some
      · rw [List.getElem?_take_of_lt (by decide : 0 < TELEGRAM_MSG_LIMIT)]
        exact h0
      · intro j hj
        rw [List.getElem?_take]
        by_cases hjL : j < TELEGRAM_MSG_LIMIT
        · rw [if_pos hjL]
          exact hlater j hj hjL
        · rw [if_neg hjL]
          simp
    rw [hhead]
    unfold splitIdx
    rw [hsome]
    rfl

/-- Witness for C7 on the claim's own example: a 5000-character input whose
only line break is at position 4000 splits at 4000, not 4096. -/
theorem C7_witness :
    (splitChunks (List.replicate 4000 'a' ++ '\n' :: List.replicate 999 'a')).head? =
      some (List.replicate 4000 'a') ∧
    (List.replicate 4000 'a' ++ '\n' :: List.replicate 999 'a').length = 5000 := by
  have hlen : (List.replicate 4000 'a' ++ '\n' :: List.replicate 999 'a').length
      = 5000 := by
    rw [List.length_append, List.length_replicate, List.length_cons,
      List.length_replicate]
  have h : TELEGRAM_MSG_LIMIT <
      (List.replicate 4000 'a' ++ '\n' :: List.replicate 999 'a').length := by
    rw [hlen]; decide
  have h4000 : (List.replicate 4000 'a' ++ '\n' :: List.replicate 999 'a')[4000]?
      = some '\n' := by
    rw [List.getElem?_append_right (le_of_eq (List.length_replicate 4000 'a')),
      List.length_replicate, show (4000 : Nat) - 4000 = 0 from by decide,
      List.getElem?_cons_zero]
  have hlater : ∀ j : Nat, 4000 < j → j < TELEGRAM_MSG_LIMIT →
      (List.replicate 4000 'a' ++ '\n' :: List.replicate 999 'a')[j]? ≠
        some '\n' := by
    intro j hj hjL
    rw [List.getElem?_append_right (by rw [List.length_replicate]; omega)]
    have hrw : j - (List.replicate 4000 'a').length = (j - 4001) + 1 := by
      rw [List.length_replicate]
      omega
    rw [hrw, List.getElem?_cons_succ, List.getElem?_replicate]
    by_cases hlt : j - 4001 < 999
    · rw [if_pos hlt]
      decide
    · rw [if_neg hlt]
      simp
  have happ := (C7_split_point _ h).2.1 4000 (by decide) (by decide) h4000 hlater
  exact ⟨by rw [happ, List.take_left' (List.length_replicate 4000 'a')], hlen⟩

/-- The first chunk starts with the same character as the input (used to
show that a line-break split puts the break at the head of the next
chunk). -/
theorem splitChunks_head_head (l : List Char) (c : List Char)
    (h : (splitChunks l)[0]? = some c) : c.head? = l.head? := by
  rw [splitChunks] at h
  by_cases hl : TELEGRAM_MSG_LIMIT < l.length
  · rw [if_pos hl] at h
    have hc : l.take (splitIdx l) = c := by simpa using h
    subst hc
    have hidx := splitIdx_pos l
    cases l with
    | nil => simp at hl
    | cons a t =>
      cases hI : splitIdx (a :: t) with
      | zero =>
        rw [hI] at hidx
        omega
      | succ k =>
        rw [List.take_succ_cons]
        rfl
  · rw [if_neg hl] at h
    have hc : l = c := by simpa using h
    subst hc
    rfl

/-- Fueled adjacency property of chunk boundaries, for strong induction. -/
theorem splitChunks_adjacent_aux :
    ∀ (n : Nat) (s : List Char), s.length ≤ n →
      ∀ (i : Nat) (c₁ c₂ : List Char),
        (splitChunks s)[i]? = some c₁ → (splitChunks s)[i + 1]? = some c₂ →
        c₁.length = TELEGRAM_MSG_LIMIT ∨ c₂.head? = some '\n' := by
  intro n
  induction n with
  | zero =>
    intro s hs i c₁ c₂ _ h2
    have hlen : ¬ (TELEGRAM_MSG_LIMIT < s.length) := by omega
    rw [splitChunks, if_neg hlen] at h2
    simp at h2
  | succ n ih =>
    intro s hs i c₁ c₂ h1 h2
    by_cases hl : TELEGRAM_MSG_LIMIT < s.length
    · rw [splitChunks, if_pos hl] at h1 h2
      cases i with
      | succ k =>
        rw [List.getElem?_cons_succ] at h1 h2
        exact ih (s.drop (splitIdx s))
          (by
            simp only [List.length_drop]
            have := splitIdx_pos s
            omega)
          k c₁ c₂ h1 h2
      | zero =>
        have hc1 : s.take (splitIdx s) = c₁ := by simpa using h1
        rw [List.getElem?_cons_succ] at h2
        cases hNL : lastIdxNl (s.take TELEGRAM_MSG_LIMIT) with
        | none =>
          left
          have hidx : splitIdx s = TELEGRAM_MSG_LIMIT := by
            unfold splitIdx
            rw [hNL]
          rw [← hc1, hidx, List.length_take]
          omega
        | some i0 =>
          by_cases hi0 : 0 < i0
          · right
            have hidx : splitIdx s = i0 := by
              unfold splitIdx
              rw [hNL]
              show (if 0 < i0 then i0 else TELEGRAM_MSG_LIMIT) = i0
              rw [if_pos hi0]
            have hhd := splitChunks_head_head (s.drop (splitIdx s)) c₂ h2
            rw [hhd, List.head?_drop, hidx]
            have hget := lastIdxNl_getElem _ _ hNL
            have hi0lt : i0 < TELEGRAM_MSG_LIMIT := by
              have := lastIdxNl_lt_length _ _ hNL
              rw [List.length_take] at this
              omega
            rw [← List.getElem?_take_of_lt hi0lt]
            exact hget
          · left
            have hidx : splitIdx s = TELEGRAM_MSG_LIMIT := by
              unfold splitIdx
              rw [hNL]
              show (if 0 < i0 then i0 else TELEGRAM_MSG_LIMIT) = TELEGRAM_MSG_LIMIT
              rw [if_neg hi0]
            rw [← hc1, hidx, List.length_take]
            omega
    · rw [splitChunks, if_neg hl] at h2
      simp at h2

/-- Claim C3 (amended): the splitter is markup-oblivious — every split
boundary is either a hard cut (the chunk before it has exactly 4096
characters) or sits at a line break (the chunk after it starts with the
newline); consequently, with no line break in range a split can fall
inside a `<pre><code>` block, as the counterexample exhibits. -/
theorem C3_split_boundaries (s : List Char) (i : Nat) (c₁ c₂ : List Char)
    (h1 : (splitChunks s)[i]? = some c₁)
    (h2 : (splitChunks s)[i + 1]? = some c₂) :
    c₁.length = TELEGRAM_MSG_LIMIT ∨ c₂.head? = some '\n' :=
  splitChunks_adjacent_aux s.length s (Nat.le_refl _) i c₁ c₂ h1 h2

/-- Witness for the amended C3 on a 4097-character newline-free input:
the single split boundary is the hard cut. -/
theorem C3_witness :
    (List.replicate 4096 'a').length = TELEGRAM_MSG_LIMIT ∨
    (List.replicate 1 'a').head? = some '\n' := by
  have h1 : TELEGRAM_MSG_LIMIT < (List.replicate 4097 'a').length := by
    rw [List.length_replicate]; decide
  have hs := splitChunks_noNl_step (List.replicate 4097 'a') h1
    (fun c hc => by rw [List.eq_of_mem_replicate hc]; decide)
  have htake : (List.replicate 4097 'a').take TELEGRAM_MSG_LIMIT =
      List.replicate 4096 'a' := by
    rw [List.take_replicate, Nat.min_eq_left (by decide),
      show TELEGRAM_MSG_LIMIT = 4096 from by decide]
  have hdrop : (List.replicate 4097 'a').drop TELEGRAM_MSG_LIMIT =
      List.replicate 1 'a' := by
    rw [List.drop_replicate,
      show (4097 : Nat) - TELEGRAM_MSG_LIMIT = 1 from by decide]
  have hbase : splitChunks (List.replicate 1 'a') = [List.replicate 1 'a'] := by
    have hno : ¬ (TELEGRAM_MSG_LIMIT < (List.replicate 1 'a').length) := by
      rw [List.length_replicate]; decide
    rw [splitChunks, if_neg hno]
  rw [htake, hdrop, hbase] at hs
  exact C3_split_boundaries (List.replicate 4097 'a') 0
    (List.replicate 4096 'a') (List.replicate 1 'a')
    (by rw [hs]; rfl) (by rw [hs]; rfl)

/-! ## Fence extraction and the code-block branch of `markdown_to_html` -/

theorem take3_cons (c : Char) (l : List Char) : (c :: l).take 3 = c :: l.take 2 :=
  rfl

theorem findFence_start (t : List Char) :
    findFence (backtick :: backtick :: backtick :: t) = some 0 := by
  rw [findFence,
    if_pos (show (backtick :: backtick :: backtick :: t).take 3 = fence from rfl)]

theorem findFence_no_bt :
    ∀ (inner : List Char), (∀ c ∈ inner, c ≠ backtick) →
      findFence (inner ++ fence) = some inner.length := by
  intro inner
  induction inner with
  | nil =>
    intro _
    rw [List.nil_append]
    show findFence (backtick :: backtick :: backtick :: []) = some 0
    exact findFence_start []
  | cons c cs ih =>
    intro h
    have hc : c ≠ backtick := h c (List.mem_cons_self c cs)
    rw [List.cons_append, findFence, if_neg, ih
      (fun x hx => h x (List.mem_cons_of_mem c hx))]
    · rfl
    · intro heq
      rw [take3_cons] at heq
      have hhd := congrArg List.head? heq
      simp only [List.head?_cons, fence, Option.some.injEq] at hhd
      exact hc hhd

theorem splitFences_nil : splitFences [] = [[]] := by
  rw [splitFences]

theorem splitFences_code (inner : List Char) (h : ∀ c ∈ inner, c ≠ backtick) :
    splitFences (fence ++ inner ++ fence) =
      [[], fence ++ inner ++ fence, []] := by
  show splitFences (backtick :: backtick :: backtick :: (inner ++ fence)) =
    [[], backtick :: backtick :: backtick :: (inner ++ fence), []]
  rw [splitFences, findFence_start]
  show (match findFence ((backtick :: backtick :: backtick ::
      (inner ++ fence)).drop (0 + 3)) with
    | none => [backtick :: backtick :: backtick :: (inner ++ fence)]
    | some k =>
      (backtick :: backtick :: backtick :: (inner ++ fence)).take 0 ::
        ((backtick :: backtick :: backtick :: (inner ++ fence)).drop 0).take
          (k + 6) ::
        splitFences ((backtick :: backtick :: backtick :: (inner ++ fence)).drop
          (0 + k + 6))) = _
  rw [show (backtick :: backtick :: backtick :: (inner ++ fence)).drop (0 + 3) =
      inner ++ fence from rfl,
    findFence_no_bt inner h]
  show (backtick :: backtick :: backtick :: (inner ++ fence)).take 0 ::
      ((backtick :: backtick :: backtick :: (inner ++ fence)).drop 0).take
        (inner.length + 6) ::
      splitFences ((backtick :: backtick :: backtick :: (inner ++ fence)).drop
        (0 + inner.length + 6)) = _
  rw [List.take_zero, List.drop_zero]
  have hlen : (backtick :: backtick :: backtick :: (inner ++ fence)).length =
      inner.length + 6 := by
    rw [List.length_cons, List.length_cons, List.length_cons,
      List.length_append, show fence.length = 3 from rfl]
  rw [List.take_of_length_le (by rw [hlen]),
    show (0 : Nat) + inner.length + 6 = inner.length + 6 from by omega,
    List.drop_eq_nil_iff.mpr (by rw [hlen]), splitFences_nil]

theorem dropWhile_bt_eq_self (l : List Char)
    (h : ∀ x ∈ l, x ≠ backtick) :
    l.dropWhile (fun c => c = backtick) = l := by
  cases l with
  | nil => rfl
  | cons a t =>
    have ha := h a (List.mem_cons_self a t)
    simp [List.dropWhile_cons, ha]

theorem strip_backticks_code (inner : List Char)
    (h : ∀ c ∈ inner, c ≠ backtick) :
    strip_backticks (fence ++ inner ++ fence) = inner := by
  unfold strip_backticks
  have hdw : ∀ (t : List Char),
      (fence ++ t).dropWhile (fun c => c = backtick) =
        t.dropWhile (fun c => c = backtick) := by
    intro t
    show (backtick :: backtick :: backtick :: t).dropWhile
      (fun c => c = backtick) = t.dropWhile (fun c => c = backtick)
    simp [List.dropWhile_cons]
  rw [List.append_assoc, hdw]
  cases hinner : inner with
  | nil =>
    decide
  | cons c cs =>
    have hc : c ≠ backtick := h c (hinner ▸ List.mem_cons_self c cs)
    rw [List.cons_append, List.dropWhile_cons, if_neg (by simp [hc])]
    rw [List.reverse_cons, List.reverse_append,
      show fence.reverse = fence from rfl, List.append_assoc, hdw]
    rw [dropWhile_bt_eq_self (cs.reverse ++ [c]) ?hmem]
    case hmem =>
      intro x hx
      rcases List.mem_append.mp hx with h1 | h1
      · exact h x (hinner ▸ List.mem_cons_of_mem c (List.mem_reverse.mp h1))
      · have : x = c := by simpa using h1
        subst this
        exact hc
    rw [List.reverse_append, List.reverse_reverse, List.reverse_cons,
      List.reverse_nil, List.nil_append, List.singleton_append]

theorem processText_nil : processText [] = [] := by
  decide

/-- The code-block branch of `markdown_to_html` in isolation: a whole-input
fenced block with backtick-free contents is emitted as the escaped contents
wrapped in `<pre><code> ... </code></pre>`, with none of the bold / italic /
inline-code / blockquote substitutions applied. -/
theorem markdown_to_html_fence (inner : List Char)
    (h : ∀ c ∈ inner, c ≠ backtick) :
    markdown_to_html (fence ++ inner ++ fence) =
      pre_open ++ html_escape inner ++ pre_close := by
  unfold markdown_to_html
  rw [splitFences_code inner h]
  rw [List.map_cons, List.map_cons, List.map_cons, List.map_nil]
  have hnil : processSegment [] = [] := by decide
  have hcode : processSegment (fence ++ inner ++ fence) =
      pre_open ++ html_escape (strip_backticks (fence ++ inner ++ fence)) ++
        pre_close := by
    unfold processSegment
    rw [if_pos]
    constructor
    · exact (show (backtick :: backtick :: backtick ::
        (inner ++ fence)).take 3 = fence from rfl)
    · rw [List.reverse_append]
      rfl
  rw [hnil, hcode, strip_backticks_code inner h]
  simp only [List.flatten_cons, List.flatten_nil, List.nil_append,
    List.append_nil]

/-- Claim C6: a fenced code block's contents are emitted escaped verbatim,
with no bold / italic / inline-code / blockquote substitution applied
inside the block (only `html.escape` is applied on that branch). -/
theorem C6_code_block_verbatim (inner : List Char)
    (h : ∀ c ∈ inner, c ≠ backtick) :
    markdown_to_html (fence ++ inner ++ fence) =
      pre_open ++ html_escape inner ++ pre_close :=
  markdown_to_html_fence inner h

/-- Witness for C6 on the claim's own example: `"```**x**```"` renders the
asterisks literally inside a code block, not as bold markup. -/
theorem C6_witness :
    (∀ c ∈ "**x**".toList, c ≠ backtick) ∧
    markdown_to_html (fence ++ "**x**".toList ++ fence) =
      "<pre><code>**x**</code></pre>".toList := by
  refine ⟨by decide, ?_⟩
  rw [C6_code_block_verbatim "**x**".toList (by decide)]
  decide

/-! ## Occurrence lemmas and the C3 counterexample -/

theorem leadsWith_append (p t : List Char) : leadsWith p (p ++ t) = true := by
  induction p with
  | nil => rfl
  | cons c cs ih => simp [leadsWith, ih]

theorem leadsWith_mem (p : List Char) :
    ∀ (s : List Char), leadsWith p s = true → ∀ x ∈ p, x ∈ s := by
  induction p with
  | nil =>
    intro s _ x hx
    simp at hx
  | cons c cs ih =>
    intro s h x hx
    cases s with
    | nil => simp [leadsWith] at h
    | cons a t =>
      simp only [leadsWith, Bool.and_eq_true, decide_eq_true_eq] at h
      rcases List.mem_cons.mp hx with h1 | h1
      · subst h1
        rw [h.1]
        exact List.mem_cons_self a t
      · exact List.mem_cons_of_mem a (ih t h.2 x h1)

theorem containsSub_mem (p : List Char) :
    ∀ (s : List Char), containsSub p s = true → ∀ x ∈ p, x ∈ s := by
  intro s
  induction s with
  | nil =>
    intro h x hx
    cases p with
    | nil => simp at hx
    | cons a q => simp [containsSub, leadsWith] at h
  | cons a t ih =>
    intro h x hx
    simp only [containsSub, Bool.or_eq_true] at h
    rcases h with h | h
    · exact leadsWith_mem p (a :: t) h x hx
    · exact List.mem_cons_of_mem a (ih h x hx)

theorem containsSub_of_leadsWith (p s : List Char)
    (h : leadsWith p s = true) : containsSub p s = true := by
  cases s with
  | nil =>
    rw [containsSub]
    exact h
  | cons a t => simp [containsSub, h]

theorem html_escape_replicate_a (n : Nat) :
    html_escape (List.replicate n 'a') = List.replicate n 'a' := by
  induction n with
  | zero => rfl
  | succ n ih =>
    rw [List.replicate_succ]
    show html_escape_char 'a' ++ html_escape (List.replicate n 'a') =
      'a' :: List.replicate n 'a'
    rw [ih, show html_escape_char 'a' = ['a'] from rfl, List.singleton_append]

theorem splitChunks_ne_nil (s : List Char) : splitChunks s ≠ [] := by
  rw [splitChunks]
  split <;> simp

/-- Counterexample to C3 as stated: the rendering of a fenced code block of
5000 `a`s is 5024 characters with no line break, so the splitter hard-cuts
at 4096 — strictly inside the `<pre><code>` block: the first chunk contains
the opening tag but no closing tag. -/
theorem C3_counterexample :
    1 < (splitChunks (markdown_to_html
      (fence ++ List.replicate 5000 'a' ++ fence))).length ∧
    containsSub pre_open
      ((splitChunks (markdown_to_html
        (fence ++ List.replicate 5000 'a' ++ fence))).headD []) = true ∧
    containsSub pre_close
      ((splitChunks (markdown_to_html
        (fence ++ List.replicate 5000 'a' ++ fence))).headD []) = false := by
  have hmd : markdown_to_html (fence ++ List.replicate 5000 'a' ++ fence) =
      pre_open ++ (List.replicate 5000 'a' ++ pre_close) := by
    rw [markdown_to_html_fence _
        (fun c hc => by rw [List.eq_of_mem_replicate hc]; decide),
      html_escape_replicate_a, List.append_assoc]
  have hlen : (pre_open ++ (List.replicate 5000 'a' ++ pre_close)).length =
      5024 := by
    rw [List.length_append, List.length_append, List.length_replicate,
      show pre_open.length = 11 from by decide,
      show pre_close.length = 13 from by decide]
  have hnl : ∀ c ∈ pre_open ++ (List.replicate 5000 'a' ++ pre_close),
      c ≠ '\n' := by
    intro c hc
    rcases List.mem_append.mp hc with h1 | h1
    · exact (show ∀ x ∈ pre_open, x ≠ '\n' from by decide) c h1
    · rcases List.mem_append.mp h1 with h2 | h2
      · rw [List.eq_of_mem_replicate h2]
        decide
      · exact (show ∀ x ∈ pre_close, x ≠ '\n' from by decide) c h2
  have hsplit := splitChunks_noNl_step
    (pre_open ++ (List.replicate 5000 'a' ++ pre_close))
    (by rw [hlen]; decide) hnl
  have htake : (pre_open ++ (List.replicate 5000 'a' ++ pre_close)).take
      TELEGRAM_MSG_LIMIT = pre_open ++ List.replicate 4085 'a' := by
    rw [show TELEGRAM_MSG_LIMIT = pre_open.length + 4085 from by decide,
      List.take_append,
      List.take_append_of_le_length (by rw [List.length_replicate]; decide),
      List.take_replicate, Nat.min_eq_left (by decide)]
  rw [hmd, hsplit, htake]
  refine ⟨?_, ?_, ?_⟩
  · rw [List.length_cons]
    have := List.length_pos.mpr (splitChunks_ne_nil
      ((pre_open ++ (List.replicate 5000 'a' ++ pre_close)).drop
        TELEGRAM_MSG_LIMIT))
    omega
  · rw [List.headD_cons]
    exact containsSub_of_leadsWith _ _ (leadsWith_append pre_open _)
  · rw [List.headD_cons]
    by_contra hcon
    rw [Bool.not_eq_false] at hcon
    have hslash := containsSub_mem _ _ hcon '/' (by decide)
    rcases List.mem_append.mp hslash with h1 | h1
    · exact (show ∀ x ∈ pre_open, x ≠ '/' from by decide) '/' h1 rfl
    · exact absurd (List.eq_of_mem_replicate h1) (by decide)

/-! ## Delivery fallback -/

/-- Claim C8: when the markup delivery of a chunk fails, the same chunk is
re-sent with all markup tags stripped, so the chunk is never silently
dropped after a first delivery failure. -/
theorem C8_fallback (fails : List Char → Bool) (text : List Char)
    (part : List Char)
    (hmem : part ∈ splitChunks (markdown_to_html text))
    (hfail : fails part = true) :
    (part, true) ∈ send_long_message fails text ∧
    (stripTags part, false) ∈ send_long_message fails text := by
  unfold send_long_message
  constructor
  · exact List.mem_flatten_of_mem (List.mem_map_of_mem (attemptsFor fails) hmem)
      (by rw [attemptsFor, if_pos hfail]; exact List.mem_cons_self _ _)
  · exact List.mem_flatten_of_mem (List.mem_map_of_mem (attemptsFor fails) hmem)
      (by
        rw [attemptsFor, if_pos hfail]
        exact List.mem_cons_of_mem _ (List.mem_cons_self _ _))

/-- Witness for C8: the bold reply `**x**` renders to one chunk
`<b>x</b>`; with an always-failing markup transport, both the markup
attempt and its tag-stripped plain-text retry `x` are attempted. -/
theorem C8_witness :
    ("<b>x</b>".toList, true) ∈
      send_long_message (fun _ => true) ['*', '*', 'x', '*', '*'] ∧
    ("x".toList, false) ∈
      send_long_message (fun _ => true) ['*', '*', 'x', '*', '*'] := by
  have hsf : splitFences ['*', '*', 'x', '*', '*'] =
      [['*', '*', 'x', '*', '*']] := by
    rw [splitFences,
      show findFence ['*', '*', 'x', '*', '*'] = none from by decide]
  have hmd : markdown_to_html ['*', '*', 'x', '*', '*'] = "<b>x</b>".toList := by
    unfold markdown_to_html
    rw [hsf]
    decide
  have hchunks : splitChunks ("<b>x</b>".toList) = ["<b>x</b>".toList] := by
    rw [splitChunks, if_neg (by decide)]
  have h := C8_fallback (fun _ => true) ['*', '*', 'x', '*', '*']
    ("<b>x</b>".toList)
    (by rw [hmd, hchunks]; exact List.mem_cons_self _ _) rfl
  exact ⟨h.1, by
    have h2 := h.2
    rw [show stripTags ("<b>x</b>".toList) = "x".toList from by decide] at h2
    exact h2⟩
